import Mathlib

/-!
Verification of the log-harvesting and corner-classification engine of this
repository (`harvest.py`, `harvest_v2.py`, `hav.py`, `hav_v2.py`).

Modelling conventions: Python strings are `String` / `List Char`; Python
floats are exact rationals `ℚ` (IEEE rounding and the non-finite values
`inf` and `nan` are out of scope: a token spelling a non-finite value is
parsed but carries no rational value); fallible code returns `Option`.
-/

/-- Characters of a string. -/
def chars (s : String) : List Char := s.toList

/-- Python `str.strip()` (both ends, any whitespace) on a character list. -/
def trimL (cs : List Char) : List Char :=
  ((cs.dropWhile Char.isWhitespace).reverse.dropWhile Char.isWhitespace).reverse

/-- Split a character list at maximal runs of separator characters, dropping
empty pieces: the behaviour of Python `str.split()` (with `sep = whitespace`)
and of `re.split` on a one-or-more-separators pattern applied to a stripped
string. -/
def splitRunsAux (sep : Char → Bool) : List Char → List Char → List (List Char)
  | [], acc => if acc = [] then [] else [acc.reverse]
  | c :: rest, acc =>
    if sep c then
      if acc = [] then splitRunsAux sep rest []
      else acc.reverse :: splitRunsAux sep rest []
    else splitRunsAux sep rest (c :: acc)

def splitRuns (sep : Char → Bool) (cs : List Char) : List (List Char) :=
  splitRunsAux sep cs []

/-- Python `s.split()` producing strings. -/
def tokensOf (s : String) : List String :=
  (splitRuns Char.isWhitespace (chars s)).map (fun cs => ⟨cs⟩)

/-- `tok.replace("D", "E").replace("d", "E")` on a character list (a
single-character replace is a pointwise map). -/
def replDE (cs : List Char) : List Char :=
  cs.map (fun c => if c == 'D' || c == 'd' then 'E' else c)

/-- Numeric value of a decimal digit character. -/
def digVal (c : Char) : Nat := c.toNat - '0'.toNat

/-- Consume a Python digit part `\d(_?\d)*` (single underscores allowed
between digits): accumulates the value and the digit count, returns the
unconsumed rest.  A trailing underscore is not consumed. -/
def digitsUAux : List Char → Nat → Nat → Nat × Nat × List Char
  | [], acc, cnt => (acc, cnt, [])
  | c :: rest, acc, cnt =>
    if c.isDigit then digitsUAux rest (acc * 10 + digVal c) (cnt + 1)
    else if c = '_' then
      match rest with
      | d :: rest2 =>
        if d.isDigit then digitsUAux rest2 (acc * 10 + digVal d) (cnt + 1)
        else (acc, cnt, c :: rest)
      | [] => (acc, cnt, [c])
    else (acc, cnt, c :: rest)

/-- A digit part must begin with a digit. -/
def parseDigitsU (cs : List Char) : Option (Nat × Nat × List Char) :=
  match cs with
  | d :: rest => if d.isDigit then some (digitsUAux rest (digVal d) 1) else none
  | [] => none

/-- The mantissa of a Python float literal: `d`, `d.`, `d.d` or `.d`
(digit parts with underscores).  Returns its rational value and the rest. -/
def pyMantissa (cs : List Char) : Option (ℚ × List Char) :=
  match parseDigitsU cs with
  | some (ip, _, r1) =>
    match r1 with
    | '.' :: r2 =>
      match parseDigitsU r2 with
      | some (fp, k, r3) => some ((ip : ℚ) + (fp : ℚ) / (10 : ℚ) ^ k, r3)
      | none => some ((ip : ℚ), r2)
    | _ => some ((ip : ℚ), r1)
  | none =>
    match cs with
    | '.' :: r2 =>
      match parseDigitsU r2 with
      | some (fp, k, r3) => some ((fp : ℚ) / (10 : ℚ) ^ k, r3)
      | none => none
    | _ => none

/-- The optional exponent `[eE][+-]?digits` of a Python float literal; the
whole rest of the token must be consumed by it. -/
def pyExponent (cs : List Char) : Option ℤ :=
  match cs with
  | [] => some 0
  | c :: r =>
    if c == 'e' || c == 'E' then
      let signed : Bool × List Char :=
        match r with
        | '+' :: rr => (false, rr)
        | '-' :: rr => (true, rr)
        | _ => (false, r)
      match parseDigitsU signed.2 with
      | some (ev, _, []) => some (if signed.1 then -(ev : ℤ) else (ev : ℤ))
      | _ => none
    else none

/-- Result of Python `float(str)`: a finite rational value, or one of the
non-finite spellings `inf`/`infinity`/`nan` (accepted by `float` but carrying
no rational value in this model). -/
inductive PyFloat where
  | val (q : ℚ)
  | nonfinite
deriving DecidableEq

/-- Python `float(s)` on an already stripped character list: optional sign,
then `inf`/`infinity`/`nan` (case-insensitive) or mantissa and exponent. -/
def pyFloatOfChars (cs : List Char) : Option PyFloat :=
  let signed : Bool × List Char :=
    match cs with
    | '+' :: r => (false, r)
    | '-' :: r => (true, r)
    | _ => (false, cs)
  let low := signed.2.map Char.toLower
  if low = chars "inf" ∨ low = chars "infinity" ∨ low = chars "nan" then
    some .nonfinite
  else
    match pyMantissa signed.2 with
    | some (m, rest) =>
      (pyExponent rest).map fun e =>
        .val ((if signed.1 then -m else m) * (10 : ℚ) ^ e)
    | none => none

/-! ## `harvest.py` — line classifiers and `TableBlock` -/

/-- `harvest.is_number_token` on a character list: strip, reject the empty
token, convert Fortran `D`/`d` exponents to `E`, try `float`. -/
def is_number_tokenL (cs : List Char) : Bool :=
  let t := trimL cs
  if t = [] then false else (pyFloatOfChars (replDE t)).isSome

/-- `harvest.is_number_token`. -/
def is_number_token (tok : String) : Bool := is_number_tokenL (chars tok)

/-- `harvest.split_cols`: `re.split(r"[ \t]{2,}", line.strip())` — split only
at runs of two or more spaces/tabs (single separators stay inside a piece). -/
def splitCols2Aux : List Char → List Char → List Char → List (List Char)
  | [], acc, pend =>
    if 2 ≤ pend.length then [acc.reverse, []] else [acc.reverse ++ pend]
  | c :: rest, acc, pend =>
    if c == ' ' || c == '\t' then splitCols2Aux rest acc (pend ++ [c])
    else if 2 ≤ pend.length then
      acc.reverse :: splitCols2Aux rest [c] []
    else splitCols2Aux rest (c :: (pend.reverse ++ acc)) []

def split_cols (line : String) : List String :=
  (splitCols2Aux (trimL (chars line)) [] []).map (fun cs => ⟨cs⟩)

/-- `harvest.looks_like_header`: no `=` sign, at least two column pieces, at
least two of them non-numeric. -/
def looks_like_header (line : String) : Bool :=
  if (chars line).any (fun c => c == '=') then false
  else
    let cols := splitCols2Aux (trimL (chars line)) [] []
    decide (2 ≤ cols.length) &&
      decide (2 ≤ cols.countP (fun c => !(is_number_tokenL c)))

/-- `harvest.tokens_from_numeric_line`. -/
def tokens_from_numeric_line (line : String) : Option (List String) :=
  let cs := chars line
  if trimL cs = [] then none
  else if (match cs.dropWhile Char.isWhitespace with
           | c :: _ => c == '+'
           | [] => false) then none
  else
    let s := trimL cs
    if s = ['('] ∨ s = [')'] then none
    else if (match s with | [c] => c.isAlpha | _ => false) then none
    else
      let cols := splitRuns (fun c => c == ' ' || c == '\t') s
      match cols with
      | [] => none
      | c0 :: _ =>
        if !(is_number_tokenL c0) then none
        else if max 1 (cols.length / 2) ≤ cols.countP is_number_tokenL then
          some (cols.map (fun t => ⟨t⟩))
        else none

/-- `harvest.parse_number`: normalize Fortran `D` exponents to `E`. -/
def parse_number (tok : String) : String := ⟨replDE (chars tok)⟩

/-- `harvest.TableBlock` (the context and index fields only name the output
file and are omitted). -/
structure TableBlock where
  headers : List String
  rows : List (List String)
deriving DecidableEq

/-- `harvest.TableBlock.add_row`: normalize the row to the header length
(pad with empty strings or trim), normalize numbers, append. -/
def TableBlock.add_row (tb : TableBlock) (row : List String) : TableBlock :=
  let row1 :=
    if row.length < tb.headers.length then
      row ++ List.replicate (tb.headers.length - row.length) ""
    else if tb.headers.length < row.length then
      row.take tb.headers.length
    else row
  { tb with rows := tb.rows ++ [row1.map parse_number] }

/-! ## `harvest_v2.py` — `is_numeric_row` and `map_ref_to_corner` -/

/-- Whether a token fully matches `harvest_v2._NUM`, the regular expression
`[+-]?(?:\d+(?:\.\d*)?|\.\d+)(?:[eE][+-]?\d+)?`.  Mantissa part: `\d+(\.\d*)?`
or `\.\d+`, returning the unconsumed rest. -/
def numTokV2Mant (cs : List Char) : Option (List Char) :=
  let ds := cs.takeWhile Char.isDigit
  if ds ≠ [] then
    match cs.dropWhile Char.isDigit with
    | '.' :: r2 => some (r2.dropWhile Char.isDigit)
    | rest => some rest
  else
    match cs with
    | '.' :: r2 =>
      if r2.takeWhile Char.isDigit ≠ [] then some (r2.dropWhile Char.isDigit)
      else none
    | _ => none

/-- Exponent part `(?:[eE][+-]?\d+)?` of `_NUM`, anchored to the token end. -/
def numTokV2Exp (cs : List Char) : Bool :=
  match cs with
  | [] => true
  | c :: r =>
    if c == 'e' || c == 'E' then
      let r2 :=
        match r with
        | d :: rr => if d == '+' || d == '-' then rr else r
        | [] => r
      !r2.isEmpty && r2.all Char.isDigit
    else false

def numTokV2 (cs : List Char) : Bool :=
  let cs1 :=
    match cs with
    | c :: r => if c == '+' || c == '-' then r else cs
    | [] => cs
  match numTokV2Mant cs1 with
  | some rest => numTokV2Exp rest
  | none => false

/-- `harvest_v2.is_numeric_row`: strip; reject the empty line and a line made
solely of dashes; accept iff every whitespace token fully matches `_NUM`. -/
def is_numeric_row (s : String) : Bool :=
  let t := trimL (chars s)
  if t = [] then false
  else if t.all (fun c => c == '-') then false
  else (splitRuns Char.isWhitespace t).all numTokV2

/-- Python `abs` on a rational. -/
def qabs (x : ℚ) : ℚ := if 0 ≤ x then x else -x

theorem qabs_eq_abs (x : ℚ) : qabs x = |x| := by
  unfold qabs
  rcases le_or_lt 0 x with h | h
  · rw [if_pos h, abs_of_nonneg h]
  · rw [if_neg (not_le.mpr h), abs_of_neg h]

/-- First index of a rational in a list (`list.index(q)`; `0` if absent,
callers guarantee membership). -/
def idxOfQ (q : ℚ) : List ℚ → Nat
  | [] => 0
  | x :: xs => if x = q then 0 else idxOfQ q xs + 1

/-- `diffs.index(min(diffs))`: index of the first occurrence of the minimum. -/
def argminIdx (l : List ℚ) : Nat :=
  match l with
  | [] => 0
  | x :: xs => idxOfQ (xs.foldl min x) l

/-- `sorted({r for r in refs if isinstance(r, (int, float))})`: the distinct
usable reference values in ascending order. -/
def finiteRefs (refs : List (Option ℚ)) : List ℚ :=
  ((refs.filterMap id).dedup).insertionSort (· ≤ ·)

/-- The nested `label_for` of `harvest_v2.map_ref_to_corner`.  Outer `none`
models the `IndexError` raised when the closest-value index reaches past the
three-element label list; `some none` is the Python `None` result. -/
def label_for (finite : List ℚ) (r : ℚ) : Option (Option String) :=
  match finite with
  | [] => some none
  | [_] => some (some "typ")
  | [a, _] => some (some (if r = a then "min" else "max"))
  | _ =>
    let diffs := finite.map (fun v => qabs (r - v))
    (["min", "typ", "max"].get? (argminIdx diffs)).map some

/-- The `prelim` list comprehension of `map_ref_to_corner`: `label_for(r)` for
usable refs, `None` otherwise; a raised `IndexError` aborts the whole call. -/
def prelimOf (finite : List ℚ) : List (Option ℚ) → Option (List (Option String))
  | [] => some []
  | r :: rest =>
    match (match r with | none => some none | some v => label_for finite v) with
    | none => none
    | some lab => (prelimOf finite rest).map (fun tl => lab :: tl)

/-- The positional `order[i] if i < len(order) else "typ"` fill for entries
whose `prelim` label is `None`, with `order = ["typ", "min", "max"]`. -/
def fillNone (i : Nat) : List (Option String) → List String
  | [] => []
  | some l :: rest => l :: fillNone (i + 1) rest
  | none :: rest =>
    (if i < 3 then ["typ", "min", "max"].getD i "typ" else "typ")
      :: fillNone (i + 1) rest

/-- `harvest_v2.map_ref_to_corner`; `none` models a raised `IndexError`. -/
def map_ref_to_corner (refs : List (Option ℚ)) : Option (List String) :=
  (prelimOf (finiteRefs refs) refs).map (fillNone 0)

/-- The positional fallback label of `map_ref_to_corner`
(`order[i] if i < len(order) else "typ"`). -/
def orderLabel (i : Nat) : String :=
  if i < 3 then ["typ", "min", "max"].getD i "typ" else "typ"

/-- Modelled from the spec for comparison with `map_ref_to_corner`'s
behaviour on all-usable groups: the reference-rank label of value `r` given
the ascending distinct values `d` — all `typ` when one distinct value,
lower `min` / higher `max` when two, and with exactly three the smallest
`min`, the largest `max`, the remaining one `typ`. -/
def ref_rank_spec (d : List ℚ) (r : ℚ) : String :=
  if d.length = 1 then "typ"
  else if d.length = 2 then (if some r = d.head? then "min" else "max")
  else if some r = d.head? then "min"
  else if some r = d.getLast? then "max"
  else "typ"

example : is_numeric_row "1.0 2.0e-3" = true := by decide
example : is_numeric_row "" = false := by decide
example : is_numeric_row "---" = false := by decide
example : is_numeric_row "3.5" = true := by decide
example : is_numeric_row "1.0 2.0D3" = false := by decide
example : map_ref_to_corner [some 1, some 2, some 3] =
    some ["min", "typ", "max"] := by
  have hf : finiteRefs [some 1, some 2, some 3] = [1, 2, 3] := by decide
  simp only [map_ref_to_corner, hf, prelimOf, label_for]
  norm_num [qabs, argminIdx, idxOfQ, fillNone]
example : map_ref_to_corner [some 3, some 1, some 2] =
    some ["max", "min", "typ"] := by
  have hf : finiteRefs [some 3, some 1, some 2] = [1, 2, 3] := by decide
  simp only [map_ref_to_corner, hf, prelimOf, label_for]
  norm_num [qabs, argminIdx, idxOfQ, fillNone]
example : map_ref_to_corner [some 2, some 2] = some ["typ", "typ"] := by decide
example : map_ref_to_corner [some 1, some 5] = some ["min", "max"] := by decide
example : map_ref_to_corner [none, none, none, none] =
    some ["typ", "min", "max", "typ"] := by decide
example : map_ref_to_corner [some 0, some 1, some 2, some 3] = none := by
  have hf : finiteRefs [some 0, some 1, some 2, some 3] = [0, 1, 2, 3] := by
    decide
  simp only [map_ref_to_corner, hf, prelimOf, label_for]
  norm_num [qabs, argminIdx, idxOfQ]

example : is_number_token "1.5e3" = true := by decide
example : is_number_token "1.5D3" = true := by decide
example : is_number_token "inf" = true := by decide
example : is_number_token "1_0" = true := by decide
example : is_number_token "1__0" = false := by decide
example : is_number_token "." = false := by decide
example : is_number_token "1." = true := by decide
example : split_cols "time  v_sweep   i" = ["time", "v_sweep", "i"] := by decide
example : split_cols "a b  c" = ["a b", "c"] := by decide
example : looks_like_header "time  v_sweep" = true := by decide
example : looks_like_header "a = 3" = false := by decide
example : tokens_from_numeric_line " 1.0  2.0" = some ["1.0", "2.0"] := by decide
example : tokens_from_numeric_line "x" = none := by decide
example : tokens_from_numeric_line "+ 1.0" = none := by decide

/-! ## `hav.py` — sentinel-table scanner, last-writer-wins store, outputs -/

/-- The two analysis phases of `hav.py` / `hav_v2.py`. -/
inductive Phase2 where
  | vt
  | iv
deriving DecidableEq

/-- Consume a literal character sequence from the head of a list. -/
def litConsume : List Char → List Char → Option (List Char)
  | [], cs => some cs
  | _ :: _, [] => none
  | l :: ls, c :: cs => if c = l then litConsume ls cs else none

/-- Consume `\s+`: at least one whitespace character. -/
def ws1 (cs : List Char) : Option (List Char) :=
  match cs with
  | c :: r =>
    if c.isWhitespace then some (r.dropWhile Char.isWhitespace) else none
  | [] => none

/-- Match `v-?t\s+curve\s+simulations` (resp. `i-?v\s+...`) at the head of an
already lowercased character list. -/
def bannerAt (c1 c2 : Char) (cs : List Char) : Bool :=
  (do
    let r1 ← litConsume [c1] cs
    let r1 := match r1 with | '-' :: rr => rr | _ => r1
    let r2 ← litConsume [c2] r1
    let r3 ← ws1 r2
    let r4 ← litConsume (chars "curve") r3
    let r5 ← ws1 r4
    let _ ← litConsume (chars "simulations") r5
    some ()).isSome

def searchBannerGo (c1 c2 : Char) : List Char → Bool
  | [] => false
  | c :: rest => bannerAt c1 c2 (c :: rest) || searchBannerGo c1 c2 rest

/-- `re.search` of a phase banner pattern anywhere in the line
(case-insensitive). -/
def searchBanner (c1 c2 : Char) (s : String) : Bool :=
  searchBannerGo c1 c2 ((chars s).map Char.toLower)

example : searchBanner 'v' 't' "**** V-T Curve Simulations ****" = true := by
  decide
example : searchBanner 'v' 't' "vt curve simulations" = true := by decide
example : searchBanner 'i' 'v' "I-V   curve   simulations here" = true := by
  decide
example : searchBanner 'v' 't' "vt curve sims" = false := by decide

/-- A word character for the `\b` boundaries of the cue patterns. -/
def isWordChar (c : Char) : Bool := c.isAlphanum || c = '_'

/-- Maximal word-character runs of a lowercased string.  A `\b`-delimited
all-word-character alternative such as `min`, `minimum`, `slow`, `ss` matches
somewhere in the string iff it equals one of these runs. -/
def wordsOf (s : String) : List (List Char) :=
  splitRuns (fun c => !(isWordChar c)) ((chars s).map Char.toLower)

/-- `hav.cue_from_text`: `CUE_MIN = \b(min(imum)?|slow|ss)\b` is tried before
`CUE_MAX = \b(max(imum)?|fast|ff)\b`, both case-insensitive searches. -/
def cue_from_text (s : String) : Option String :=
  let ws := wordsOf s
  if ws.any (fun w =>
      w = chars "min" ∨ w = chars "minimum" ∨ w = chars "slow" ∨ w = chars "ss")
  then some "min"
  else if ws.any (fun w =>
      w = chars "max" ∨ w = chars "maximum" ∨ w = chars "fast" ∨ w = chars "ff")
  then some "max"
  else none

/-- `hav.ALTER_LINE.search`: `^\s*\.alter\b`, case-insensitive (the pattern is
anchored, so search = match at the start). -/
def isAlterLine (s : String) : Bool :=
  let t := ((chars s).map Char.toLower).dropWhile Char.isWhitespace
  match litConsume (chars ".alter") t with
  | some rest =>
    match rest with
    | [] => true
    | c :: _ => !(isWordChar c)
  | none => false

/-- `hav.NUM_ROW.match` on an already stripped, nonempty line:
`^\s*[-+0-9Ee\.]+(?:\s+[-+0-9Ee\.]+){1,}\s*$` — at least two whitespace-spaced
tokens made only of sign/digit/`E`/`e`/`.` characters. -/
def numRowHav (t : List Char) : Bool :=
  let toks := splitRuns Char.isWhitespace t
  decide (2 ≤ toks.length) &&
    toks.all (fun tok => tok.all (fun c =>
      c == '-' || c == '+' || c.isDigit || c == 'E' || c == 'e' || c == '.'))

/-- The text after the first `$`, if any (`line.split("$", 1)[1]`). -/
def afterDollar : List Char → Option (List Char)
  | [] => none
  | '$' :: rest => some rest
  | _ :: rest => afterDollar rest

/-- The look-ahead of `hav.parse_lis` for a corner cue in up to six
comment-only lines after an `.ALTER` line. -/
def lookaheadCue (lines : List String) (k : Nat) : Nat → Option String
  | 0 => none
  | hops + 1 =>
    if h : k < lines.length then
      let s : List Char := trimL (chars (lines.get ⟨k, h⟩))
      if s.take 1 = ['$'] then
        match cue_from_text ⟨s⟩ with
        | some c => some c
        | none => lookaheadCue lines (k + 1) hops
      else if s ≠ [] then none
      else lookaheadCue lines (k + 1) hops
    else none

example : cue_from_text "$ slow corner" = some "min" := by decide
example : cue_from_text "$ the FF corner" = some "max" := by decide
example : cue_from_text "$ minimum and maximum" = some "min" := by decide
example : cue_from_text "$ nothing here" = none := by decide
example : isAlterLine "  .ALTER slow" = true := by decide
example : isAlterLine ".alternative" = false := by decide
example : numRowHav (chars "1.0 2.0e-3") = true := by decide
example : numRowHav (chars "1.0") = false := by decide

/-- Diagnostics attached to each table by `hav.parse_lis` (the constant
`label_policy` string is the same for every table and is omitted). -/
structure HavMeta where
  phase_table_index : Nat
  pre_table_alter_cue : Option String
  pre_table_alter_cue_line : Option Nat
deriving DecidableEq

/-- One table recorded by `hav.parse_lis`. -/
structure HavBlock where
  header : List String
  rows : List (List String)
  meta : HavMeta
deriving DecidableEq

/-- Scanner state of `hav.parse_lis`: current phase, per-phase table
counters, per-phase pending `.ALTER` cues. -/
structure ScanSt where
  phase : Option Phase2
  seen_vt : Nat
  seen_iv : Nat
  cue_vt : Option String
  cue_vt_line : Option Nat
  cue_iv : Option String
  cue_iv_line : Option Nat
deriving DecidableEq

def ScanSt.init : ScanSt := ⟨none, 0, 0, none, none, none, none⟩

/-- First index `j' ≥ j` whose line is nonblank (`lines.length` if none):
the header-seeking loop after an `x` sentinel. -/
def firstNonblank (lines : List String) (j : Nat) : Nat :=
  if h : j < lines.length then
    if trimL (chars (lines.get ⟨j, h⟩)) = [] then firstNonblank lines (j + 1)
    else j
  else lines.length
termination_by lines.length - j

/-- The row loop of `hav.parse_lis`: collect numeric rows until a lone `y`
line or the end of input; other lines inside the block are skipped.  Returns
the rows and the index of the `y` line (or `lines.length`). -/
def rowsUntilY (lines : List String) (j : Nat) : List (List String) × Nat :=
  if h : j < lines.length then
    let s := trimL (chars (lines.get ⟨j, h⟩))
    if s = ['y'] then ([], j)
    else
      let r := rowsUntilY lines (j + 1)
      (if s ≠ [] ∧ numRowHav s then (splitRuns Char.isWhitespace s).map
          (fun cs => (⟨cs⟩ : String)) :: r.1
       else r.1, r.2)
  else ([], j)
termination_by lines.length - j

theorem firstNonblank_ge (lines : List String) (j : Nat)
    (hle : j ≤ lines.length) : j ≤ firstNonblank lines j := by
  rw [firstNonblank]
  split
  next h =>
    split
    · have ih := firstNonblank_ge lines (j + 1) (by omega)
      omega
    · exact le_refl j
  next h => exact hle
termination_by lines.length - j

theorem rowsUntilY_ge (lines : List String) (j : Nat) :
    j ≤ (rowsUntilY lines j).2 := by
  rw [rowsUntilY]
  split
  next h =>
    dsimp only
    split
    · exact le_refl j
    · have ih := rowsUntilY_ge lines (j + 1)
      omega
  next h => exact le_refl j
termination_by lines.length - j

/-- Record a pending `.ALTER` cue (`hav.parse_lis`, cue tracking): first the
text after `$` on the line itself, then a six-line look-ahead. -/
def applyCue (lines : List String) (i : Nat) (ph : Phase2) (st : ScanSt)
    (line : String) : ScanSt :=
  let cue0 :=
    match afterDollar (chars line) with
    | some tail => cue_from_text ⟨tail⟩
    | none => none
  let cue :=
    match cue0 with
    | some c => some c
    | none => lookaheadCue lines (i + 1) 6
  match ph with
  | .vt => { st with cue_vt := cue, cue_vt_line := some (i + 1) }
  | .iv => { st with cue_iv := cue, cue_iv_line := some (i + 1) }

def ScanSt.seenOf (st : ScanSt) : Phase2 → Nat
  | .vt => st.seen_vt
  | .iv => st.seen_iv

def ScanSt.cueOf (st : ScanSt) : Phase2 → Option String
  | .vt => st.cue_vt
  | .iv => st.cue_iv

def ScanSt.cueLineOf (st : ScanSt) : Phase2 → Option Nat
  | .vt => st.cue_vt_line
  | .iv => st.cue_iv_line

/-- Consume the pending cue and bump the table counter after a table. -/
def ScanSt.afterTable (st : ScanSt) : Phase2 → ScanSt
  | .vt => { st with seen_vt := st.seen_vt + 1, cue_vt := none,
                     cue_vt_line := none }
  | .iv => { st with seen_iv := st.seen_iv + 1, cue_iv := none,
                     cue_iv_line := none }

/-- The per-phase sequence-order corner of `hav.parse_lis`:
1st table `min`, 2nd `max`, 3rd and later `typ`. -/
def cornerOfIdx (idx : Nat) : String :=
  if idx = 1 then "min" else if idx = 2 then "max" else "typ"

/-- The scan loop of `hav.parse_lis`, emitting the sequence of
`latest[(phase, corner)] = block` assignments in program order. -/
def scanLis (lines : List String) (i : Nat) (st : ScanSt) :
    List ((Phase2 × String) × HavBlock) :=
  if hi : i < lines.length then
    let line := lines.get ⟨i, hi⟩
    let ph1 : Option Phase2 :=
      if searchBanner 'v' 't' line then some .vt
      else if searchBanner 'i' 'v' line then some .iv
      else st.phase
    let st1 : ScanSt := { st with phase := ph1 }
    let st2 : ScanSt :=
      match ph1 with
      | some ph => if isAlterLine line then applyCue lines i ph st1 line else st1
      | none => st1
    if trimL (chars line) = ['x'] then
      match ph1 with
      | none => scanLis lines (i + 1) st2
      | some ph =>
        let j := firstNonblank lines (i + 1)
        if hj : j < lines.length then
          let header := tokensOf (lines.get ⟨j, hj⟩)
          let rws := rowsUntilY lines (j + 1)
          let idx := st2.seenOf ph + 1
          let blk : HavBlock :=
            ⟨header, rws.1, ⟨idx, st2.cueOf ph, st2.cueLineOf ph⟩⟩
          ((ph, cornerOfIdx idx), blk) ::
            scanLis lines (rws.2 + 1) (st2.afterTable ph)
        else []
    else scanLis lines (i + 1) st2
  else []
termination_by lines.length - i
decreasing_by
  · omega
  · have h1 := firstNonblank_ge lines (i + 1) (by omega)
    have h2 := rowsUntilY_ge lines (firstNonblank lines (i + 1) + 1)
    omega
  · omega

/-! ### Python dictionary semantics (insertion-ordered, update in place) -/

variable {K V : Type} [DecidableEq K]

/-- First-match lookup in an association list. -/
def lookupA : List (K × V) → K → Option V
  | [], _ => none
  | p :: rest, k => if p.1 = k then some p.2 else lookupA rest k

/-- Replace the value at every pair whose key is `k` (an insertion-ordered
dictionary holds it at most once). -/
def replaceAll (m : List (K × V)) (k : K) (v : V) : List (K × V) :=
  m.map (fun p => if p.1 = k then (k, v) else p)

/-- `d[k] = v` on a Python dict: update in place if the key is present,
otherwise append. -/
def dictSet (m : List (K × V)) (k : K) (v : V) : List (K × V) :=
  if (lookupA m k).isSome then replaceAll m k v else m ++ [(k, v)]

/-- Build a dict by performing a list of assignments in order. -/
def dictBuild (evs : List ((K × V))) : List (K × V) :=
  evs.foldl (fun m e => dictSet m e.1 e.2) []

theorem lookupA_append (m m2 : List (K × V)) (k : K) :
    lookupA (m ++ m2) k =
      match lookupA m k with
      | some v => some v
      | none => lookupA m2 k := by
  induction m with
  | nil => rfl
  | cons p rest ih =>
    by_cases h : p.1 = k
    · simp [lookupA, h]
    · simp [lookupA, h, ih]

theorem replaceAll_cons (p : K × V) (rest : List (K × V)) (k : K) (v : V) :
    replaceAll (p :: rest) k v =
      (if p.1 = k then (k, v) else p) :: replaceAll rest k v := by
  simp [replaceAll]

theorem lookupA_replaceAll (m : List (K × V)) (k : K) (v : V) (k2 : K) :
    lookupA (replaceAll m k v) k2 =
      if k2 = k then (if (lookupA m k).isSome then some v else none)
      else lookupA m k2 := by
  induction m with
  | nil => simp [replaceAll, lookupA]
  | cons p rest ih =>
    rw [replaceAll_cons]
    by_cases hpk : p.1 = k
    · by_cases hk2 : k2 = k
      · subst hk2
        simp [lookupA, hpk]
      · have hkk2 : ¬k = k2 := fun h => hk2 h.symm
        have hpk2 : ¬p.1 = k2 := by rw [hpk]; exact hkk2
        simp [lookupA, hpk, hk2, hkk2, hpk2, ih]
    · by_cases hk2 : k2 = k
      · subst hk2
        simp [lookupA, hpk, ih]
      · by_cases hpk2 : p.1 = k2
        · simp [lookupA, hpk, hpk2, hk2]
        · simp [lookupA, hpk, hpk2, hk2, ih]

theorem lookupA_dictSet (m : List (K × V)) (k : K) (v : V) (k2 : K) :
    lookupA (dictSet m k v) k2 = if k2 = k then some v else lookupA m k2 := by
  unfold dictSet
  by_cases hs : (lookupA m k).isSome
  · rw [if_pos hs, lookupA_replaceAll]
    by_cases hk2 : k2 = k
    · simp [hk2, hs]
    · simp [hk2]
  · rw [if_neg hs, lookupA_append]
    by_cases hk2 : k2 = k
    · subst hk2
      rcases h : lookupA m k2 with _ | w
      · simp [lookupA]
      · rw [h] at hs
        simp at hs
    · rcases h : lookupA m k2 with _ | w
      · simp [lookupA, hk2, fun hh => hk2 hh]
        intro hkk
        exact absurd hkk.symm hk2
      · simp [hk2]

theorem replaceAll_keys (m : List (K × V)) (k : K) (v : V) :
    (replaceAll m k v).map Prod.fst = m.map Prod.fst := by
  induction m with
  | nil => rfl
  | cons p rest ih =>
    rw [replaceAll_cons]
    by_cases hpk : p.1 = k
    · simp [hpk, ih]
    · simp [hpk, ih]

theorem lookupA_eq_none_iff (m : List (K × V)) (k : K) :
    lookupA m k = none ↔ k ∉ m.map Prod.fst := by
  induction m with
  | nil => simp [lookupA]
  | cons p rest ih =>
    by_cases hpk : p.1 = k
    · simp [lookupA, hpk]
    · simp only [lookupA, if_neg hpk, ih, List.map_cons, List.mem_cons, not_or]
      constructor
      · intro h
        exact ⟨fun he => hpk he.symm, h⟩
      · intro h
        exact h.2

theorem dictSet_keys_nodup (m : List (K × V)) (k : K) (v : V)
    (h : (m.map Prod.fst).Nodup) : ((dictSet m k v).map Prod.fst).Nodup := by
  unfold dictSet
  by_cases hs : (lookupA m k).isSome
  · rw [if_pos hs, replaceAll_keys]
    exact h
  · rw [if_neg hs]
    have hnm : k ∉ m.map Prod.fst := by
      rw [← lookupA_eq_none_iff]
      rcases hl : lookupA m k with _ | w
      · rfl
      · rw [hl] at hs
        simp at hs
    simp [List.nodup_append, h, hnm]

theorem dictBuild_aux_nodup (evs : List (K × V)) :
    ∀ m : List (K × V), (m.map Prod.fst).Nodup →
      ((evs.foldl (fun m e => dictSet m e.1 e.2) m).map Prod.fst).Nodup := by
  induction evs with
  | nil => exact fun m h => h
  | cons e rest ih =>
    intro m h
    exact ih (dictSet m e.1 e.2) (dictSet_keys_nodup m e.1 e.2 h)

theorem dictBuild_keys_nodup (evs : List (K × V)) :
    ((dictBuild evs).map Prod.fst).Nodup :=
  dictBuild_aux_nodup evs [] (by simp)

theorem dictBuild_aux_lookup (evs : List (K × V)) (k : K) :
    ∀ m : List (K × V),
      lookupA (evs.foldl (fun m e => dictSet m e.1 e.2) m) k =
        match lookupA evs.reverse k with
        | some v => some v
        | none => lookupA m k := by
  induction evs with
  | nil => intro m; simp [lookupA]
  | cons e rest ih =>
    intro m
    have hrev : (e :: rest).reverse = rest.reverse ++ [e] := by simp
    rw [List.foldl_cons, ih (dictSet m e.1 e.2), hrev, lookupA_append]
    rcases hr : lookupA rest.reverse k with _ | w
    · rw [lookupA_dictSet]
      by_cases hk : e.1 = k
      · simp [lookupA, hk]
      · have hk2 : ¬k = e.1 := fun h => hk h.symm
        simp [lookupA, hk, hk2]
    · rfl

/-- `hav.parse_lis`: the resulting `latest` dictionary, keyed by
`(phase, corner)`; the value under each key is the most recent table mapped
to that corner (Python dict assignment). -/
def parse_lis (lines : List String) : List ((Phase2 × String) × HavBlock) :=
  dictBuild (scanLis lines 0 ScanSt.init)

theorem parse_lis_lookup (lines : List String) (k : Phase2 × String) :
    lookupA (parse_lis lines) k =
      lookupA (scanLis lines 0 ScanSt.init).reverse k := by
  unfold parse_lis dictBuild
  rw [dictBuild_aux_lookup]
  rcases h : lookupA (scanLis lines 0 ScanSt.init).reverse k with _ | w
  · simp [lookupA]
  · rfl

/-- The fixed output target set of `hav.write_outputs`. -/
def targets : List (Phase2 × String) :=
  [(.vt, "min"), (.vt, "max"), (.vt, "typ"),
   (.iv, "min"), (.iv, "max"), (.iv, "typ")]

/-- One output file written by `hav.write_outputs`: its CSV cell rows (header
row included) and whether it is a missing-data stub. -/
structure OutRec where
  phase : Phase2
  corner : String
  csv : List (List String)
  missing : Bool
deriving DecidableEq

/-- `hav.write_outputs`: one record per target; a `NO_DATA_FOUND` stub when
the `latest` store holds nothing for the pair. -/
def write_outputs (latest : List ((Phase2 × String) × HavBlock)) :
    List OutRec :=
  targets.map fun t =>
    match lookupA latest t with
    | none => ⟨t.1, t.2, [["NO_DATA_FOUND"]], true⟩
    | some b => ⟨t.1, t.2, b.header :: b.rows, false⟩

/-! ## `hav_v2.py` — table flushing and corner choice with checks -/

/-- One parsed table of `hav_v2.parse_lis`. -/
structure Tbl where
  cols : List String
  rows : List (List String)
  params : List (String × ℚ)
deriving DecidableEq

def IV_DEFAULT_HDR : List String :=
  ["time", "v_sweep", "i_pulldown", "i_gndclamp", "i_pullup", "i_powerclamp"]

def VT_DEFAULT_HDR : List String :=
  ["time", "pulldown_on", "pulldown_off", "pullup_on", "pullup_off"]

/-- `hav_v2._synthesize_headers` (`phase or ""` picks the VT default when the
phase is unset, since only `"iv"` selects the IV default). -/
def synthesize_headers (phase : Option Phase2) (ncols : Nat) : List String :=
  let base := match phase with | some .iv => IV_DEFAULT_HDR | _ => VT_DEFAULT_HDR
  let hdr := base.take ncols
  hdr ++ ((List.range ncols).drop hdr.length).map (fun j => "col" ++ toString j)

/-- Mutable state of `hav_v2.parse_lis` captured by `flush_table`. -/
structure V2St where
  phase : Option Phase2
  current_cols : Option (List String)
  current_rows : List (List String)
  pending_params : List (String × ℚ)
  out_vt : List Tbl
  out_iv : List Tbl
deriving DecidableEq

/-- `hav_v2.parse_lis.flush_table`: an empty row buffer only clears the
pending parameters; otherwise the header is synthesized or resized to the
first row's width and the table is appended to the current phase's list
(`out[phase]` raises when no phase is set, modelled as `none`). -/
def flush_table (st : V2St) : Option V2St :=
  match st.current_rows with
  | [] => some { st with pending_params := [] }
  | r0 :: _ =>
    let ncols := r0.length
    let cols :=
      match st.current_cols with
      | none => synthesize_headers st.phase ncols
      | some [] => synthesize_headers st.phase ncols
      | some cs =>
        if cs.length = ncols then cs
        else if ncols < cs.length then cs.take ncols
        else cs ++ ((List.range ncols).drop cs.length).map
          (fun j => "col" ++ toString j)
    let tbl : Tbl := ⟨cols, st.current_rows, st.pending_params⟩
    match st.phase with
    | some .vt =>
      some { st with current_cols := none, current_rows := [],
                     pending_params := [], out_vt := st.out_vt ++ [tbl] }
    | some .iv =>
      some { st with current_cols := none, current_rows := [],
                     pending_params := [], out_iv := st.out_iv ++ [tbl] }
    | none => none

/-- First case-insensitive match of a column name (`get_pdon_last`'s inner
scan over `enumerate(cols)`). -/
def idxCI (cand : List Char) : List String → Option Nat
  | [] => none
  | c :: rest =>
    if (chars c).map Char.toLower = cand then some 0
    else (idxCI cand rest).map (fun n => n + 1)

/-- `float(cell.replace("D", "E"))` returning a finite value, `none` when the
conversion raises (or yields a non-finite value, out of scope here). -/
def pyQOfCell (s : String) : Option ℚ :=
  match pyFloatOfChars (replDE (trimL (chars s))) with
  | some (.val q) => some q
  | _ => none

/-- `hav_v2.choose_corners_by_order_and_checks.get_pdon_last`: the value in
the last row under the first `pulldown_on`-like column, `none` on any
failure. -/
def get_pdon_last (o : Option Tbl) : Option ℚ :=
  match o with
  | none => none
  | some t =>
    if t.cols = [] ∨ t.rows = [] then none
    else
      match (match idxCI (chars "pulldown_on") t.cols with
             | some i => some i
             | none =>
               match idxCI (chars "pd_on") t.cols with
               | some i => some i
               | none => idxCI (chars "pull_down_on") t.cols) with
      | none => none
      | some idx =>
        match t.rows.getLast? with
        | none => none
        | some r =>
          match r.get? idx with
          | none => none
          | some cell => pyQOfCell cell

/-- The `_temp_info` / `_temp_warning` entry of the mapping, with the
formatted diagnostic string replaced by its structured content. -/
inductive TempNote where
  | reordered (low mid high : String)
  | missing
deriving DecidableEq

/-- The `_vt_warning` entry, structured content of the formatted string. -/
inductive VtNote where
  | orderFailed (vmin vtyp vmax : ℚ)
  | missingPdon
deriving DecidableEq

/-- The mapping returned by `choose_corners_by_order_and_checks`. -/
structure CornerMap where
  typ : Option Tbl
  min : Option Tbl
  max : Option Tbl
  temp_note : TempNote
  vt_warning : Option VtNote
deriving DecidableEq

/-- The padding, order-based initial mapping and temperature-based reorder of
`choose_corners_by_order_and_checks` (everything before the VT check).
`sorted(corners, key=...)` is a stable ascending sort by temperature. -/
def corner_base (phase_tables : List (Option Tbl)) : CornerMap :=
  let pts := phase_tables ++ List.replicate (3 - phase_tables.length) none
  let t0 := pts.getD 0 none
  let t1 := pts.getD 1 none
  let t2 := pts.getD 2 none
  match t0.bind (fun t => lookupA t.params "temp"),
        t1.bind (fun t => lookupA t.params "temp"),
        t2.bind (fun t => lookupA t.params "temp") with
  | some a, some b, some c =>
    let sortedC := List.insertionSort (fun p q : String × ℚ => p.2 ≤ q.2)
      [("typ", a), ("min", b), ("max", c)]
    let low := (sortedC.getD 0 ("", 0)).1
    let mid := (sortedC.getD 1 ("", 0)).1
    let high := (sortedC.getD 2 ("", 0)).1
    let tblOf : String → Option Tbl :=
      fun k => if k = "typ" then t0 else if k = "min" then t1 else t2
    { max := tblOf low, typ := tblOf mid, min := tblOf high,
      temp_note := .reordered low mid high, vt_warning := none }
  | _, _, _ =>
    { typ := t0, min := t1, max := t2, temp_note := .missing,
      vt_warning := none }

/-- `hav_v2.choose_corners_by_order_and_checks`: the reordered mapping, plus
— only for the VT phase — the advisory `Vmin < Vtyp < Vmax` check on the
pulldown-on end values, which can only add a `_vt_warning` entry. -/
def choose_corners_by_order_and_checks (phase_tables : List (Option Tbl))
    (phase : String) : CornerMap :=
  let base := corner_base phase_tables
  if phase = "vt" then
    match get_pdon_last base.min, get_pdon_last base.typ,
          get_pdon_last base.max with
    | some a, some b, some c =>
      if ¬(a < b ∧ b < c) then
        { base with vt_warning := some (.orderFailed a b c) }
      else base
    | _, _, _ => { base with vt_warning := some .missingPdon }
  else base

/-! ## `harvest.py` — the header-table branch of the scan loop -/

/-- The row-collection loop of `harvest.harvest`'s header-table branch:
consume lines while `tokens_from_numeric_line` accepts them. -/
def collectNumRows (lines : List String) (j : Nat) :
    List (List String) × Nat :=
  if h : j < lines.length then
    match tokens_from_numeric_line (lines.get ⟨j, h⟩) with
    | none => ([], j)
    | some toks =>
      let r := collectNumRows lines (j + 1)
      (toks :: r.1, r.2)
  else ([], j)
termination_by lines.length - j

/-- `harvest.harvest`, lines handling a header-looking line: skip a single
blank line, require the next line to be numeric-ish (otherwise plain text:
no table, scan advances one line), then collect rows through
`TableBlock.add_row`. -/
def headerStep (lines : List String) (i : Nat) : Option TableBlock × Nat :=
  if looks_like_header (lines.getD i "") then
    let j0 := i + 1
    let j :=
      if j0 < lines.length ∧ trimL (chars (lines.getD j0 "")) = [] then j0 + 1
      else j0
    if lines.length ≤ j ∨ tokens_from_numeric_line (lines.getD j "") = none
    then (none, i + 1)
    else
      let headers := split_cols (lines.getD i "")
      let res := collectNumRows lines j
      (some (res.1.foldl TableBlock.add_row ⟨headers, []⟩), res.2)
  else (none, i + 1)

/-! ## Claim theorems -/

theorem parse_number_empty : parse_number "" = "" := rfl

/-- C3: for every table whose header has length N and every input row of
length M, the row stored by `TableBlock.add_row` has exactly N fields —
padded with empty-string tokens when M < N and truncated to the first N
tokens when M > N (each token is `D`-to-`E` normalized). -/
theorem C3_row_normalization (tb : TableBlock) (row : List String) :
    ∃ stored,
      (tb.add_row row).rows = tb.rows ++ [stored] ∧
      stored.length = tb.headers.length ∧
      (row.length < tb.headers.length →
        stored = row.map parse_number ++
          List.replicate (tb.headers.length - row.length) "") ∧
      (tb.headers.length < row.length →
        stored = (row.take tb.headers.length).map parse_number) := by
  unfold TableBlock.add_row
  by_cases h1 : row.length < tb.headers.length
  · refine ⟨(row ++ List.replicate (tb.headers.length - row.length) "").map
      parse_number, ?_, ?_, ?_, ?_⟩
    · rw [if_pos h1]
    · simp only [List.length_map, List.length_append, List.length_replicate]
      omega
    · intro _
      rw [List.map_append, List.map_replicate, parse_number_empty]
    · intro h2
      omega
  · by_cases h2 : tb.headers.length < row.length
    · refine ⟨(row.take tb.headers.length).map parse_number, ?_, ?_, ?_, ?_⟩
      · rw [if_neg h1, if_pos h2]
      · simp only [List.length_map, List.length_take]
        omega
      · intro h
        omega
      · intro _
        rfl
    · refine ⟨row.map parse_number, ?_, ?_, ?_, ?_⟩
      · rw [if_neg h1, if_neg h2]
      · simp only [List.length_map]
        omega
      · intro h
        omega
      · intro h
        omega

/-- C3 witness: a one-token row `["1d2"]` against a three-column header is
stored as three fields. -/
theorem C3_row_normalization_witness :
    ∃ stored,
      (TableBlock.add_row ⟨["a", "b", "c"], []⟩ ["1d2"]).rows =
        (⟨["a", "b", "c"], []⟩ : TableBlock).rows ++ [stored] ∧
      stored.length = (⟨["a", "b", "c"], []⟩ : TableBlock).headers.length ∧
      ((["1d2"] : List String).length <
          (⟨["a", "b", "c"], []⟩ : TableBlock).headers.length →
        stored = (["1d2"] : List String).map parse_number ++
          List.replicate
            ((⟨["a", "b", "c"], []⟩ : TableBlock).headers.length -
              (["1d2"] : List String).length) "") ∧
      ((⟨["a", "b", "c"], []⟩ : TableBlock).headers.length <
          (["1d2"] : List String).length →
        stored = ((["1d2"] : List String).take
          (⟨["a", "b", "c"], []⟩ : TableBlock).headers.length).map
            parse_number) :=
  C3_row_normalization ⟨["a", "b", "c"], []⟩ ["1d2"]

/-- C4: `write_outputs` emits exactly one record per (phase, corner) pair of
the fixed six-element target set `{vt,iv} × {min,typ,max}`; a pair with no
harvested table gets a `NO_DATA_FOUND` stub rather than being omitted. -/
theorem C4_complete_output (latest : List ((Phase2 × String) × HavBlock)) :
    ((write_outputs latest).map (fun r => (r.phase, r.corner))) = targets ∧
    targets.Nodup ∧
    (∀ ph c, (ph, c) ∈ targets ↔ (c = "min" ∨ c = "typ" ∨ c = "max")) ∧
    (∀ t ∈ targets, lookupA latest t = none →
      (⟨t.1, t.2, [["NO_DATA_FOUND"]], true⟩ : OutRec) ∈
        write_outputs latest) ∧
    (∀ t ∈ targets, ∀ b, lookupA latest t = some b →
      (⟨t.1, t.2, b.header :: b.rows, false⟩ : OutRec) ∈
        write_outputs latest) := by
  refine ⟨?_, by decide, ?_, ?_, ?_⟩
  · unfold write_outputs
    rw [List.map_map]
    have h : ∀ t ∈ targets,
        ((fun r : OutRec => (r.phase, r.corner)) ∘ fun t : Phase2 × String =>
          match lookupA latest t with
          | none => (⟨t.1, t.2, [["NO_DATA_FOUND"]], true⟩ : OutRec)
          | some b => ⟨t.1, t.2, b.header :: b.rows, false⟩) t = id t := by
      intro t _
      rcases hl : lookupA latest t with _ | b
      · simp [hl]
      · simp [hl]
    rw [List.map_congr_left h, List.map_id]
  · intro ph c
    constructor
    · intro h
      simp only [targets, List.mem_cons, List.not_mem_nil, or_false,
        Prod.mk.injEq] at h
      rcases h with ⟨_, h⟩ | ⟨_, h⟩ | ⟨_, h⟩ | ⟨_, h⟩ | ⟨_, h⟩ | ⟨_, h⟩ <;>
        simp [h]
    · intro h
      cases ph <;> rcases h with h | h | h <;> simp [targets, h]
  · intro t ht hnone
    unfold write_outputs
    have hm := List.mem_map_of_mem (fun t : Phase2 × String =>
      match lookupA latest t with
      | none => (⟨t.1, t.2, [["NO_DATA_FOUND"]], true⟩ : OutRec)
      | some b => ⟨t.1, t.2, b.header :: b.rows, false⟩) ht
    simpa [hnone] using hm
  · intro t ht b hb
    unfold write_outputs
    have hm := List.mem_map_of_mem (fun t : Phase2 × String =>
      match lookupA latest t with
      | none => (⟨t.1, t.2, [["NO_DATA_FOUND"]], true⟩ : OutRec)
      | some b => ⟨t.1, t.2, b.header :: b.rows, false⟩) ht
    simpa [hb] using hm

/-- C4 witness: on an empty store, the (vt, min) output is the stub. -/
theorem C4_complete_output_witness :
    ((write_outputs []).map (fun r => (r.phase, r.corner))) = targets ∧
    (⟨Phase2.vt, "min", [["NO_DATA_FOUND"]], true⟩ : OutRec) ∈
      write_outputs [] :=
  ⟨(C4_complete_output []).1,
   (C4_complete_output []).2.2.2.1 (Phase2.vt, "min") (by decide) rfl⟩

theorem filterMap_id_replicate_none (n : Nat) :
    (List.replicate n (none : Option ℚ)).filterMap id = [] := by
  induction n with
  | zero => rfl
  | succ m ih => simp [List.replicate_succ, ih]

theorem prelimOf_replicate_none (finite : List ℚ) (n : Nat) :
    prelimOf finite (List.replicate n none) =
      some (List.replicate n (none : Option String)) := by
  induction n with
  | zero => rfl
  | succ m ih => simp [List.replicate_succ, prelimOf, ih]

theorem fillNone_replicate (m : Nat) :
    ∀ i, fillNone i (List.replicate m (none : Option String)) =
      (List.range' i m).map orderLabel := by
  induction m with
  | zero => intro i; rfl
  | succ k ih =>
    intro i
    rw [List.replicate_succ]
    rw [show fillNone i (none :: List.replicate k (none : Option String)) =
      (if i < 3 then ["typ", "min", "max"].getD i "typ" else "typ") ::
        fillNone (i + 1) (List.replicate k none) from rfl]
    rw [ih (i + 1), List.range'_succ, List.map_cons]
    rfl

/-- C5 (amended): when no table in the group carries a usable reference
value, `map_ref_to_corner` labels by position — 1st `typ`, 2nd `min`,
3rd `max`, and every occurrence from the 4th on gets `typ` (not `max`);
the legacy `hav.parse_lis` sequence fallback instead uses 1st `min`,
2nd `max`, and 3rd and later `typ`. -/
theorem C5_amended_sequence_fallback (n : Nat) :
    (map_ref_to_corner (List.replicate n none) =
      some ((List.range n).map orderLabel)) ∧
    (cornerOfIdx 1 = "min" ∧ cornerOfIdx 2 = "max" ∧
      ∀ k, 3 ≤ k → cornerOfIdx k = "typ") := by
  constructor
  · unfold map_ref_to_corner finiteRefs
    rw [filterMap_id_replicate_none, prelimOf_replicate_none]
    show some (fillNone 0 (List.replicate n none)) =
      some ((List.range n).map orderLabel)
    rw [fillNone_replicate n 0, List.range_eq_range' n]
  · refine ⟨rfl, rfl, ?_⟩
    intro k hk
    unfold cornerOfIdx
    rw [if_neg (by omega), if_neg (by omega)]

/-- C5 witness: four valueless tables are labelled typ, min, max, typ, and
the legacy sequence fallback sends the 5th table to typ. -/
theorem C5_amended_sequence_fallback_witness :
    map_ref_to_corner (List.replicate 4 none) =
      some ((List.range 4).map orderLabel) ∧ cornerOfIdx 5 = "typ" :=
  ⟨(C5_amended_sequence_fallback 4).1,
   (C5_amended_sequence_fallback 4).2.2.2 5 (by decide)⟩

/-- C5 counterexample: with four tables and no usable values the 4th
occurrence is labelled `typ`, not `max` as the claim states. -/
theorem C5_counterexample :
    map_ref_to_corner (List.replicate 4 none) =
      some ["typ", "min", "max", "typ"] ∧
    (map_ref_to_corner (List.replicate 4 none)).map
      (fun ls => ls.getD 3 "") ≠ some "max" := by
  constructor
  · decide
  · decide

theorem all_dash_iff (t : List Char) :
    t.all (fun c => c == '-') = true ↔ ∀ c ∈ t, c = '-' := by
  rw [List.all_eq_true]
  constructor
  · intro h c hc
    exact eq_of_beq (h c hc)
  · intro h c hc
    exact beq_iff_eq.mpr (h c hc)

/-- C6 (amended): `is_numeric_row` is true exactly when the stripped line is
nonempty, is not made solely of dashes, and every whitespace-separated token
(one or more) fully matches the `_NUM` pattern, whose exponents use only
`e`/`E`.  (Contrary to the claim, a single-token line is accepted and
Fortran `D` exponents are rejected.) -/
theorem C6_amended_numeric_row (s : String) :
    is_numeric_row s = true ↔
      (trimL (chars s) ≠ [] ∧
       ¬(∀ c ∈ trimL (chars s), c = '-') ∧
       ∀ tok ∈ splitRuns Char.isWhitespace (trimL (chars s)),
         numTokV2 tok = true) := by
  unfold is_numeric_row
  by_cases h1 : trimL (chars s) = []
  · simp [h1]
  · rw [if_neg h1]
    by_cases h2 : (trimL (chars s)).all (fun c => c == '-') = true
    · rw [if_pos h2]
      rw [all_dash_iff] at h2
      apply iff_of_false
      · simp
      · rintro ⟨_, hnd, _⟩
        exact hnd h2
    · rw [if_neg h2]
      rw [all_dash_iff] at h2
      simp [h1, h2, List.all_eq_true]

/-- C6 counterexample: the single-token line `3.5` is accepted as a numeric
row although the claim requires at least two tokens, and the two-token line
`2.5 1.0D5` is rejected although the claim treats `D` exponents like `E`. -/
theorem C6_counterexample :
    is_numeric_row "3.5" = true ∧
    (splitRuns Char.isWhitespace (trimL (chars "3.5"))).length = 1 ∧
    is_numeric_row "2.5 1.0D5" = false := by
  refine ⟨by decide, by decide, by decide⟩

/-- C7: the `latest` store built by `hav.parse_lis` holds at most one entry
per (phase, corner) key, and the entry under each key is the value of the
most recent `latest[(phase, corner)] = block` assignment of the scan
(last-writer-wins; the function is total, so no error is raised). -/
theorem C7_last_writer_wins (lines : List String) :
    ((parse_lis lines).map Prod.fst).Nodup ∧
    ∀ k : Phase2 × String,
      lookupA (parse_lis lines) k =
        lookupA (scanLis lines 0 ScanSt.init).reverse k :=
  ⟨dictBuild_keys_nodup _, fun k => parse_lis_lookup lines k⟩

theorem foldl_add_row_len (raws : List (List String)) :
    ∀ tb : TableBlock,
      ((raws.foldl TableBlock.add_row tb).rows).length =
        tb.rows.length + raws.length := by
  induction raws with
  | nil => intro tb; simp
  | cons r rest ih =>
    intro tb
    rw [List.foldl_cons, ih]
    unfold TableBlock.add_row
    simp only [List.length_append, List.length_cons, List.length_nil]
    omega

/-- C8: the segmenter never emits a zero-row table.  In `harvest.harvest`,
a header-looking line not followed by a numeric row yields no table and the
scan simply advances one line; when a table is emitted it has at least one
row.  In `hav_v2.parse_lis`, `flush_table` on an empty row buffer only
clears the pending parameters — the output table lists are unchanged. -/
theorem C8_no_empty_tables :
    (∀ (lines : List String) (i : Nat),
      (∃ tbl j, headerStep lines i = (some tbl, j) ∧ tbl.rows ≠ []) ∨
      headerStep lines i = (none, i + 1)) ∧
    (∀ st : V2St, st.current_rows = [] →
      flush_table st = some { st with pending_params := [] }) := by
  constructor
  · intro lines i
    by_cases hh : looks_like_header (lines.getD i "") = true
    · unfold headerStep
      rw [if_pos hh]
      set J := if i + 1 < lines.length ∧ trimL (chars (lines.getD (i + 1) ""))
        = [] then i + 1 + 1 else i + 1 with hJ
      by_cases hg : lines.length ≤ J ∨
          tokens_from_numeric_line (lines.getD J "") = none
      · right
        rw [if_pos hg]
      · left
        rw [if_neg hg]
        push_neg at hg
        obtain ⟨hJlt, htok⟩ := hg
        refine ⟨_, _, rfl, ?_⟩
        rcases ht : tokens_from_numeric_line (lines.getD J "") with _ | toks
        · exact absurd ht htok
        have hcoll : (collectNumRows lines J).1 =
            toks :: (collectNumRows lines (J + 1)).1 := by
          rw [collectNumRows, dif_pos hJlt,
            show lines.get ⟨J, hJlt⟩ = lines.getD J "" from
              (List.getD_eq_getElem lines "" hJlt).symm, ht]
        apply List.ne_nil_of_length_pos
        rw [foldl_add_row_len, hcoll]
        simp
    · right
      unfold headerStep
      rw [if_neg hh]
  · intro st h
    simp [flush_table, h]

/-- C8 witness: a concrete two-line header table is emitted nonempty, and a
concrete empty-buffer flush leaves the state's outputs untouched. -/
theorem C8_no_empty_tables_witness :
    ((∃ tbl j, headerStep ["a  b", "1 2"] 0 = (some tbl, j) ∧
        tbl.rows ≠ []) ∨
      headerStep ["a  b", "1 2"] 0 = (none, 0 + 1)) ∧
    flush_table ⟨none, none, [], [], [], []⟩ =
      some { (⟨none, none, [], [], [], []⟩ : V2St) with
               pending_params := [] } :=
  ⟨C8_no_empty_tables.1 ["a  b", "1 2"] 0,
   C8_no_empty_tables.2 ⟨none, none, [], [], [], []⟩ rfl⟩

theorem corner_base_vt_warning (ts : List (Option Tbl)) :
    (corner_base ts).vt_warning = none := by
  unfold corner_base
  dsimp only
  split <;> rfl

theorem choose_corners_fields (ts : List (Option Tbl)) (ph : String) :
    (choose_corners_by_order_and_checks ts ph).typ = (corner_base ts).typ ∧
    (choose_corners_by_order_and_checks ts ph).min = (corner_base ts).min ∧
    (choose_corners_by_order_and_checks ts ph).max = (corner_base ts).max ∧
    (choose_corners_by_order_and_checks ts ph).temp_note =
      (corner_base ts).temp_note := by
  unfold choose_corners_by_order_and_checks
  by_cases hph : ph = "vt"
  · rw [if_pos hph]
    split
    · split
      · exact ⟨rfl, rfl, rfl, rfl⟩
      · exact ⟨rfl, rfl, rfl, rfl⟩
    · exact ⟨rfl, rfl, rfl, rfl⟩
  · rw [if_neg hph]
    exact ⟨rfl, rfl, rfl, rfl⟩

/-- C9: the VT pulldown-on order check is advisory.  The corner mapping (and
hence the written output, which reads only the `typ`/`min`/`max` fields) is
identical to that of a run without the check (the IV phase); when the end
values are located in all three corners and `min < typ < max` fails, only a
warning is recorded, and when it holds no warning is recorded. -/
theorem C9_vt_check_advisory (ts : List (Option Tbl)) :
    ((choose_corners_by_order_and_checks ts "vt").typ =
        (choose_corners_by_order_and_checks ts "iv").typ ∧
      (choose_corners_by_order_and_checks ts "vt").min =
        (choose_corners_by_order_and_checks ts "iv").min ∧
      (choose_corners_by_order_and_checks ts "vt").max =
        (choose_corners_by_order_and_checks ts "iv").max ∧
      (choose_corners_by_order_and_checks ts "vt").temp_note =
        (choose_corners_by_order_and_checks ts "iv").temp_note ∧
      (choose_corners_by_order_and_checks ts "iv").vt_warning = none) ∧
    (∀ a b c : ℚ,
      get_pdon_last (choose_corners_by_order_and_checks ts "vt").min =
        some a →
      get_pdon_last (choose_corners_by_order_and_checks ts "vt").typ =
        some b →
      get_pdon_last (choose_corners_by_order_and_checks ts "vt").max =
        some c →
      (¬(a < b ∧ b < c) →
        (choose_corners_by_order_and_checks ts "vt").vt_warning =
          some (.orderFailed a b c)) ∧
      ((a < b ∧ b < c) →
        (choose_corners_by_order_and_checks ts "vt").vt_warning = none)) := by
  have hiv : choose_corners_by_order_and_checks ts "iv" = corner_base ts := by
    unfold choose_corners_by_order_and_checks
    rw [if_neg (by decide : ¬("iv" : String) = "vt")]
  have hf := choose_corners_fields ts "vt"
  constructor
  · rw [hiv]
    exact ⟨hf.1, hf.2.1, hf.2.2.1, hf.2.2.2, corner_base_vt_warning ts⟩
  · intro a b c ha hb hc
    rw [hf.2.1] at ha
    rw [hf.1] at hb
    rw [hf.2.2.1] at hc
    constructor
    · intro hlt
      unfold choose_corners_by_order_and_checks
      rw [if_pos rfl]
      simp only [ha, hb, hc]
      rw [if_pos hlt]
    · intro hlt
      unfold choose_corners_by_order_and_checks
      rw [if_pos rfl]
      simp only [ha, hb, hc]
      rw [if_neg (not_not_intro hlt), corner_base_vt_warning]

theorem sort3_stable (ta tb tc : ℚ) :
    List.insertionSort (fun p q : String × ℚ => p.2 ≤ q.2)
      [("typ", ta), ("min", tb), ("max", tc)] =
      if tb ≤ tc then
        if ta ≤ tb then [("typ", ta), ("min", tb), ("max", tc)]
        else if ta ≤ tc then [("min", tb), ("typ", ta), ("max", tc)]
        else [("min", tb), ("max", tc), ("typ", ta)]
      else
        if ta ≤ tc then [("typ", ta), ("max", tc), ("min", tb)]
        else if ta ≤ tb then [("max", tc), ("typ", ta), ("min", tb)]
        else [("max", tc), ("min", tb), ("typ", ta)] := by
  simp only [List.insertionSort, List.orderedInsert]
  by_cases h1 : tb ≤ tc
  · simp only [if_pos h1, List.orderedInsert]
    split_ifs <;> rfl
  · simp only [if_neg h1, List.orderedInsert]
    split_ifs <;> rfl

/-- C2: when every one of the three tables of a phase carries a numeric
`temp` parameter (`hav_v2` has no reference-value heuristic, so that
heuristic is inapplicable), `choose_corners_by_order_and_checks` ranks by
temperature: the table with the strictly highest temperature is mapped to
`min`, the strictly lowest to `max`, and the strictly middle one to `typ`. -/
theorem C2_temperature_rank (a b c : Tbl) (ta tb tc : ℚ) (ph : String)
    (hA : lookupA a.params "temp" = some ta)
    (hB : lookupA b.params "temp" = some tb)
    (hC : lookupA c.params "temp" = some tc) :
    let m := choose_corners_by_order_and_checks [some a, some b, some c] ph
    ((tb < ta ∧ tc < ta) → m.min = some a) ∧
    ((ta < tb ∧ tc < tb) → m.min = some b) ∧
    ((ta < tc ∧ tb < tc) → m.min = some c) ∧
    ((ta < tb ∧ ta < tc) → m.max = some a) ∧
    ((tb < ta ∧ tb < tc) → m.max = some b) ∧
    ((tc < ta ∧ tc < tb) → m.max = some c) ∧
    (((tb < ta ∧ ta < tc) ∨ (tc < ta ∧ ta < tb)) → m.typ = some a) ∧
    (((ta < tb ∧ tb < tc) ∨ (tc < tb ∧ tb < ta)) → m.typ = some b) ∧
    (((ta < tc ∧ tc < tb) ∨ (tb < tc ∧ tc < ta)) → m.typ = some c) := by
  intro m
  have hfld := choose_corners_fields [some a, some b, some c] ph
  have hs0 : (([some a, some b, some c] ++
      List.replicate (3 - [some a, some b, some c].length) none).getD 0
        none).bind (fun t => lookupA t.params "temp") = some ta := hA
  have hs1 : (([some a, some b, some c] ++
      List.replicate (3 - [some a, some b, some c].length) none).getD 1
        none).bind (fun t => lookupA t.params "temp") = some tb := hB
  have hs2 : (([some a, some b, some c] ++
      List.replicate (3 - [some a, some b, some c].length) none).getD 2
        none).bind (fun t => lookupA t.params "temp") = some tc := hC
  have cmin : (corner_base [some a, some b, some c]).min =
      (if ((List.insertionSort (fun p q : String × ℚ => p.2 ≤ q.2)
          [("typ", ta), ("min", tb), ("max", tc)]).getD 2 ("", 0)).1 = "typ"
       then some a
       else if ((List.insertionSort (fun p q : String × ℚ => p.2 ≤ q.2)
          [("typ", ta), ("min", tb), ("max", tc)]).getD 2 ("", 0)).1 = "min"
       then some b else some c) := by
    unfold corner_base
    dsimp only
    rw [hs0, hs1, hs2]
    rfl
  have ctyp : (corner_base [some a, some b, some c]).typ =
      (if ((List.insertionSort (fun p q : String × ℚ => p.2 ≤ q.2)
          [("typ", ta), ("min", tb), ("max", tc)]).getD 1 ("", 0)).1 = "typ"
       then some a
       else if ((List.insertionSort (fun p q : String × ℚ => p.2 ≤ q.2)
          [("typ", ta), ("min", tb), ("max", tc)]).getD 1 ("", 0)).1 = "min"
       then some b else some c) := by
    unfold corner_base
    dsimp only
    rw [hs0, hs1, hs2]
    rfl
  have cmax : (corner_base [some a, some b, some c]).max =
      (if ((List.insertionSort (fun p q : String × ℚ => p.2 ≤ q.2)
          [("typ", ta), ("min", tb), ("max", tc)]).getD 0 ("", 0)).1 = "typ"
       then some a
       else if ((List.insertionSort (fun p q : String × ℚ => p.2 ≤ q.2)
          [("typ", ta), ("min", tb), ("max", tc)]).getD 0 ("", 0)).1 = "min"
       then some b else some c) := by
    unfold corner_base
    dsimp only
    rw [hs0, hs1, hs2]
    rfl
  have hmin := (hfld.2.1).trans cmin
  have htyp := (hfld.1).trans ctyp
  have hmax := (hfld.2.2.1).trans cmax
  rw [sort3_stable] at hmin htyp hmax
  by_cases h1 : tb ≤ tc <;> by_cases h2 : ta ≤ tb <;> by_cases h3 : ta ≤ tc <;>
    simp only [h1, h2, h3, if_true, if_false, ite_true, ite_false,
      List.getD_cons_zero, List.getD_cons_succ] at hmin htyp hmax <;>
    norm_num at hmin htyp hmax <;>
    refine ⟨?_, ?_, ?_, ?_, ?_, ?_, ?_, ?_, ?_⟩ <;> intro h <;>
      first
        | exact hmin
        | exact htyp
        | exact hmax
        | (exfalso; rcases h with ⟨hx, hy⟩ | ⟨hx, hy⟩ <;> linarith)
        | (exfalso; obtain ⟨hx, hy⟩ := h; linarith)

/-- C2 witness: temperatures 25, 125, −40 — the 125-degree table is labelled
`min`, the −40-degree table `max`, the 25-degree table `typ`. -/
theorem C2_temperature_rank_witness :
    (choose_corners_by_order_and_checks
      [some ⟨[], [], [("temp", 25)]⟩, some ⟨[], [], [("temp", 125)]⟩,
       some ⟨[], [], [("temp", -40)]⟩] "iv").min =
        some ⟨[], [], [("temp", 125)]⟩ ∧
    (choose_corners_by_order_and_checks
      [some ⟨[], [], [("temp", 25)]⟩, some ⟨[], [], [("temp", 125)]⟩,
       some ⟨[], [], [("temp", -40)]⟩] "iv").max =
        some ⟨[], [], [("temp", -40)]⟩ ∧
    (choose_corners_by_order_and_checks
      [some ⟨[], [], [("temp", 25)]⟩, some ⟨[], [], [("temp", 125)]⟩,
       some ⟨[], [], [("temp", -40)]⟩] "iv").typ =
        some ⟨[], [], [("temp", 25)]⟩ := by
  have h := C2_temperature_rank ⟨[], [], [("temp", 25)]⟩
    ⟨[], [], [("temp", 125)]⟩ ⟨[], [], [("temp", -40)]⟩
    25 125 (-40) "iv" rfl rfl rfl
  exact ⟨h.2.1 (by norm_num), h.2.2.2.2.2.1 (by norm_num),
    h.2.2.2.2.2.2.1 (Or.inr (by norm_num))⟩

/-- C9 witness: three VT tables whose pulldown-on end values are 5, 9, 7
(so typ = 5, min = 9, max = 7 after file-order mapping): the order check
fails, the warning records (9, 5, 7). -/
theorem C9_vt_check_advisory_witness :
    (choose_corners_by_order_and_checks
      [some ⟨["pulldown_on"], [["5"]], []⟩,
       some ⟨["pulldown_on"], [["9"]], []⟩,
       some ⟨["pulldown_on"], [["7"]], []⟩] "vt").vt_warning =
      some (VtNote.orderFailed 9 5 7) := by
  have h := (C9_vt_check_advisory
    [some ⟨["pulldown_on"], [["5"]], []⟩,
     some ⟨["pulldown_on"], [["9"]], []⟩,
     some ⟨["pulldown_on"], [["7"]], []⟩]).2 9 5 7 ?hmin ?htyp ?hmax
  · exact h.1 (by norm_num)
  case hmin =>
    rw [(choose_corners_fields
      [some ⟨["pulldown_on"], [["5"]], []⟩,
       some ⟨["pulldown_on"], [["9"]], []⟩,
       some ⟨["pulldown_on"], [["7"]], []⟩] "vt").2.1]
    rw [show corner_base
        [some ⟨["pulldown_on"], [["5"]], []⟩,
         some ⟨["pulldown_on"], [["9"]], []⟩,
         some ⟨["pulldown_on"], [["7"]], []⟩] =
      ⟨some ⟨["pulldown_on"], [["5"]], []⟩,
       some ⟨["pulldown_on"], [["9"]], []⟩,
       some ⟨["pulldown_on"], [["7"]], []⟩, .missing, none⟩ from rfl]
    rw [show get_pdon_last (some (⟨["pulldown_on"], [["9"]], []⟩ : Tbl)) =
      some (((9 : ℕ) : ℚ) * (10 : ℚ) ^ (0 : ℤ)) from rfl]
    norm_num
  case htyp =>
    rw [(choose_corners_fields
      [some ⟨["pulldown_on"], [["5"]], []⟩,
       some ⟨["pulldown_on"], [["9"]], []⟩,
       some ⟨["pulldown_on"], [["7"]], []⟩] "vt").1]
    rw [show corner_base
        [some ⟨["pulldown_on"], [["5"]], []⟩,
         some ⟨["pulldown_on"], [["9"]], []⟩,
         some ⟨["pulldown_on"], [["7"]], []⟩] =
      ⟨some ⟨["pulldown_on"], [["5"]], []⟩,
       some ⟨["pulldown_on"], [["9"]], []⟩,
       some ⟨["pulldown_on"], [["7"]], []⟩, .missing, none⟩ from rfl]
    rw [show get_pdon_last (some (⟨["pulldown_on"], [["5"]], []⟩ : Tbl)) =
      some (((5 : ℕ) : ℚ) * (10 : ℚ) ^ (0 : ℤ)) from rfl]
    norm_num
  case hmax =>
    rw [(choose_corners_fields
      [some ⟨["pulldown_on"], [["5"]], []⟩,
       some ⟨["pulldown_on"], [["9"]], []⟩,
       some ⟨["pulldown_on"], [["7"]], []⟩] "vt").2.2.1]
    rw [show corner_base
        [some ⟨["pulldown_on"], [["5"]], []⟩,
         some ⟨["pulldown_on"], [["9"]], []⟩,
         some ⟨["pulldown_on"], [["7"]], []⟩] =
      ⟨some ⟨["pulldown_on"], [["5"]], []⟩,
       some ⟨["pulldown_on"], [["9"]], []⟩,
       some ⟨["pulldown_on"], [["7"]], []⟩, .missing, none⟩ from rfl]
    rw [show get_pdon_last (some (⟨["pulldown_on"], [["7"]], []⟩ : Tbl)) =
      some (((7 : ℕ) : ℚ) * (10 : ℚ) ^ (0 : ℤ)) from rfl]
    norm_num

theorem filterMap_map_some (l : List ℚ) :
    (l.map (fun r => some r)).filterMap id = l := by
  induction l with
  | nil => rfl
  | cons x xs ih => simp [ih]

theorem finiteRefs_map_some (refs : List ℚ) :
    finiteRefs (refs.map (fun r => some r)) =
      (refs.dedup).insertionSort (· ≤ ·) := by
  unfold finiteRefs
  rw [filterMap_map_some]

theorem finiteRefs_sorted (refs : List (Option ℚ)) :
    (finiteRefs refs).Sorted (· ≤ ·) :=
  List.sorted_insertionSort (· ≤ ·) ((refs.filterMap id).dedup)

theorem finiteRefs_nodup (refs : List (Option ℚ)) :
    (finiteRefs refs).Nodup :=
  (List.perm_insertionSort (· ≤ ·) ((refs.filterMap id).dedup)).symm.nodup
    (List.nodup_dedup _)

theorem finiteRefs_mem (refs : List ℚ) (r : ℚ) :
    r ∈ finiteRefs (refs.map (fun x => some x)) ↔ r ∈ refs := by
  rw [finiteRefs_map_some]
  rw [(List.perm_insertionSort (· ≤ ·) (refs.dedup)).mem_iff]
  exact List.mem_dedup

theorem finiteRefs_perm_eq (refs refs2 : List ℚ) (hperm : refs2.Perm refs) :
    finiteRefs (refs2.map (fun x => some x)) =
      finiteRefs (refs.map (fun x => some x)) := by
  rw [finiteRefs_map_some, finiteRefs_map_some]
  have hp : List.Perm ((refs2.dedup).insertionSort (· ≤ ·))
      ((refs.dedup).insertionSort (· ≤ ·)) :=
    ((List.perm_insertionSort _ _).trans (hperm.dedup)).trans
      (List.perm_insertionSort _ _).symm
  exact List.eq_of_perm_of_sorted hp (List.sorted_insertionSort _ _)
    (List.sorted_insertionSort _ _)

theorem qabs_zero : qabs (0 : ℚ) = 0 := by simp [qabs]

theorem label_for_eval (d : List ℚ) (hs : d.Sorted (· ≤ ·)) (hnd : d.Nodup)
    (hlen : d.length ≤ 3) (r : ℚ) (hr : r ∈ d) :
    label_for d r = some (some (ref_rank_spec d r)) := by
  match d with
  | [] => exact absurd hr (List.not_mem_nil r)
  | [a] =>
    simp [ref_rank_spec, label_for]
  | [a, b] =>
    by_cases hra : r = a
    · simp [label_for, ref_rank_spec, hra]
    · simp [label_for, ref_rank_spec, hra]
  | [a, b, c] =>
    have hab : a < b := by
      have h1 : a ≤ b := (List.sorted_cons.mp hs).1 b (by simp)
      have h2 : a ≠ b := by
        have := (List.nodup_cons.mp hnd).1
        intro he
        exact this (by simp [he])
      exact lt_of_le_of_ne h1 h2
    have hbc : b < c := by
      have hs2 := (List.sorted_cons.mp hs).2
      have hnd2 := (List.nodup_cons.mp hnd).2
      have h1 : b ≤ c := (List.sorted_cons.mp hs2).1 c (by simp)
      have h2 : b ≠ c := by
        have := (List.nodup_cons.mp hnd2).1
        intro he
        exact this (by simp [he])
      exact lt_of_le_of_ne h1 h2
    have hr2 : r = a ∨ r = b ∨ r = c := by simpa using hr
    rcases hr2 with hra | hrb | hrc
    · subst hra
      have e0 : qabs (r - r) = 0 := by rw [qabs_eq_abs]; simp
      have e1 : qabs (r - b) = b - r := by
        rw [qabs_eq_abs, abs_sub_comm]
        exact abs_of_pos (by linarith)
      have e2 : qabs (r - c) = c - r := by
        rw [qabs_eq_abs, abs_sub_comm]
        exact abs_of_pos (by linarith)
      rw [show label_for [r, b, c] r =
        ((["min", "typ", "max"].get?
          (argminIdx ([r, b, c].map (fun v => qabs (r - v))))).map some)
        from rfl]
      rw [show ([r, b, c].map (fun v => qabs (r - v))) = [0, b - r, c - r] by
        simp [e0, e1, e2, qabs_zero]]
      have hidx : argminIdx [0, b - r, c - r] = 0 := by
        unfold argminIdx
        simp only [List.foldl_cons, List.foldl_nil,
          min_eq_left (le_of_lt (show (0:ℚ) < b - r by linarith)),
          min_eq_left (le_of_lt (show (0:ℚ) < c - r by linarith))]
        simp [idxOfQ]
      rw [hidx]
      simp [ref_rank_spec]
    · subst hrb
      have e0 : qabs (r - a) = r - a := by
        rw [qabs_eq_abs]
        exact abs_of_pos (by linarith)
      have e1 : qabs (r - r) = 0 := by rw [qabs_eq_abs]; simp
      have e2 : qabs (r - c) = c - r := by
        rw [qabs_eq_abs, abs_sub_comm]
        exact abs_of_pos (by linarith)
      rw [show label_for [a, r, c] r =
        ((["min", "typ", "max"].get?
          (argminIdx ([a, r, c].map (fun v => qabs (r - v))))).map some)
        from rfl]
      rw [show ([a, r, c].map (fun v => qabs (r - v))) = [r - a, 0, c - r] by
        simp [e0, e1, e2, qabs_zero]]
      have hidx : argminIdx [r - a, 0, c - r] = 1 := by
        unfold argminIdx
        simp only [List.foldl_cons, List.foldl_nil,
          min_eq_right (le_of_lt (show (0:ℚ) < r - a by linarith)),
          min_eq_left (le_of_lt (show (0:ℚ) < c - r by linarith))]
        rw [show idxOfQ 0 [r - a, 0, c - r] =
          (if r - a = 0 then 0 else idxOfQ 0 [0, c - r] + 1) from rfl]
        rw [if_neg (by intro h; linarith)]
        simp [idxOfQ]
      rw [hidx]
      have hne1 : ¬r = a := by intro h; subst h; linarith
      have hne2 : ¬r = c := by intro h; subst h; linarith
      simp [ref_rank_spec, hne1, hne2]
    · subst hrc
      have e0 : qabs (r - a) = r - a := by
        rw [qabs_eq_abs]
        exact abs_of_pos (by linarith)
      have e1 : qabs (r - b) = r - b := by
        rw [qabs_eq_abs]
        exact abs_of_pos (by linarith)
      have e2 : qabs (r - r) = 0 := by rw [qabs_eq_abs]; simp
      rw [show label_for [a, b, r] r =
        ((["min", "typ", "max"].get?
          (argminIdx ([a, b, r].map (fun v => qabs (r - v))))).map some)
        from rfl]
      rw [show ([a, b, r].map (fun v => qabs (r - v))) = [r - a, r - b, 0] by
        simp [e0, e1, e2, qabs_zero]]
      have hidx : argminIdx [r - a, r - b, 0] = 2 := by
        unfold argminIdx
        simp only [List.foldl_cons, List.foldl_nil,
          min_eq_right (le_of_lt (show r - b < r - a by linarith)),
          min_eq_right (le_of_lt (show (0:ℚ) < r - b by linarith))]
        rw [show idxOfQ 0 [r - a, r - b, 0] =
          (if r - a = 0 then 0 else idxOfQ 0 [r - b, 0] + 1) from rfl]
        rw [if_neg (by intro h; linarith)]
        rw [show idxOfQ 0 [r - b, 0] =
          (if r - b = 0 then 0 else idxOfQ 0 [(0:ℚ)] + 1) from rfl]
        rw [if_neg (by intro h; linarith)]
        simp [idxOfQ]
      rw [hidx]
      have hne1 : ¬r = a := by intro h; subst h; linarith
      simp [ref_rank_spec, hne1]
  | a :: b :: c :: e :: tl =>
    exfalso
    simp only [List.length_cons] at hlen
    omega

theorem prelimOf_map_some (d : List ℚ) (l : List ℚ)
    (h : ∀ r ∈ l, label_for d r = some (some (ref_rank_spec d r))) :
    prelimOf d (l.map (fun x => some x)) =
      some (l.map (fun r => some (ref_rank_spec d r))) := by
  induction l with
  | nil => rfl
  | cons x xs ih =>
    have hx := h x (by simp)
    have hxs := ih (fun r hr => h r (by simp [hr]))
    simp [prelimOf, hx, hxs]

theorem fillNone_map_some (os : List String) :
    ∀ i, fillNone i (os.map (fun s => some s)) = os := by
  induction os with
  | nil => intro i; rfl
  | cons s rest ih =>
    intro i
    simp [fillNone, ih]

/-- C1 (amended): for every group in which each table has a usable numeric
reference value and the distinct values number at most three, classification
sorts the distinct values ascending and assigns: one distinct value — all
`typ`; two — the lower `min`, the higher `max`; exactly three — the
smallest `min`, the largest `max`, the middle `typ` (its own value is the
closest, so the closest-value rule degenerates to rank) — and the label of
each table depends only on its own value and the value multiset, hence not
on the order the tables appear.  (With four or more distinct values the
function instead raises, see the counterexample.) -/
theorem C1_amended_reference_rank (refs refs2 : List ℚ)
    (hle : (finiteRefs (refs.map (fun x => some x))).length ≤ 3)
    (hperm : refs2.Perm refs) :
    map_ref_to_corner (refs2.map (fun x => some x)) =
      some (refs2.map
        (ref_rank_spec (finiteRefs (refs.map (fun x => some x))))) := by
  have hd := finiteRefs_perm_eq refs refs2 hperm
  have hs := finiteRefs_sorted (refs.map (fun x => some x))
  have hnd := finiteRefs_nodup (refs.map (fun x => some x))
  have hmem : ∀ r ∈ refs2, r ∈ finiteRefs (refs.map (fun x => some x)) := by
    intro r hr
    rw [finiteRefs_mem]
    exact hperm.subset hr
  have heval : ∀ r ∈ refs2,
      label_for (finiteRefs (refs.map (fun x => some x))) r =
        some (some (ref_rank_spec
          (finiteRefs (refs.map (fun x => some x))) r)) :=
    fun r hr => label_for_eval _ hs hnd hle r (hmem r hr)
  unfold map_ref_to_corner
  rw [hd, prelimOf_map_some _ refs2 heval]
  show some (fillNone 0 (refs2.map (fun r => some (ref_rank_spec
    (finiteRefs (refs.map (fun x => some x))) r)))) = _
  rw [show refs2.map (fun r => some (ref_rank_spec
      (finiteRefs (refs.map (fun x => some x))) r)) =
    (refs2.map (ref_rank_spec (finiteRefs (refs.map (fun x => some x))))).map
      (fun s => some s) from (List.map_map _ _ _).symm]
  rw [fillNone_map_some]

/-- C1 counterexample: a group of four tables with the four distinct usable
reference values 0, 1, 2, 3 — instead of labelling the smallest `min` and
the largest `max` as the claim states for "three or more" distinct values,
`map_ref_to_corner` fails (the closest-value index 3 runs past the
three-element label list, an `IndexError`). -/
theorem C1_counterexample :
    map_ref_to_corner [some (0 : ℚ), some 1, some 2, some 3] = none ∧
    ¬∃ ls : List String,
      map_ref_to_corner [some (0 : ℚ), some 1, some 2, some 3] = some ls := by
  have h : map_ref_to_corner [some (0 : ℚ), some 1, some 2, some 3] = none := by
    have hf : finiteRefs [some (0 : ℚ), some 1, some 2, some 3] =
        [0, 1, 2, 3] := by decide
    simp only [map_ref_to_corner, hf, prelimOf, label_for]
    norm_num [qabs, argminIdx, idxOfQ]
  refine ⟨h, ?_⟩
  rintro ⟨ls, hl⟩
  rw [h] at hl
  exact Option.noConfusion hl

/-- C1 witness: the three-value group (1, 2, 3) presented in the order
(3, 1, 2) is labelled (`max`, `min`, `typ`). -/
theorem C1_amended_reference_rank_witness :
    map_ref_to_corner (([3, 1, 2] : List ℚ).map (fun x => some x)) =
      some (([3, 1, 2] : List ℚ).map
        (ref_rank_spec (finiteRefs (([1, 2, 3] : List ℚ).map
          (fun x => some x))))) :=
  C1_amended_reference_rank [1, 2, 3] [3, 1, 2] (by decide) (by decide)

theorem foldl_min_mem (xs : List ℚ) :
    ∀ x : ℚ, xs.foldl min x ∈ x :: xs := by
  induction xs with
  | nil => intro x; simp
  | cons y ys ih =>
    intro x
    rw [List.foldl_cons]
    have h := ih (min x y)
    rcases List.mem_cons.mp h with he | hm
    · rw [he]
      rcases min_choice x y with hxy | hxy <;> rw [hxy] <;> simp
    · exact List.mem_cons.mpr (Or.inr (List.mem_cons.mpr (Or.inr hm)))

theorem idxOfQ_lt_length (q : ℚ) (l : List ℚ) (h : q ∈ l) :
    idxOfQ q l < l.length := by
  induction l with
  | nil => exact absurd h (List.not_mem_nil q)
  | cons x xs ih =>
    by_cases hx : x = q
    · simp [idxOfQ, hx]
    · have hq : q ∈ xs := by
        rcases List.mem_cons.mp h with he | hm
        · exact absurd he.symm hx
        · exact hm
      simp only [idxOfQ, if_neg hx, List.length_cons]
      exact Nat.succ_lt_succ (ih hq)

theorem argminIdx_lt (l : List ℚ) (h : l ≠ []) : argminIdx l < l.length := by
  match l with
  | [] => exact absurd rfl h
  | x :: xs =>
    unfold argminIdx
    exact idxOfQ_lt_length _ _ (foldl_min_mem xs x)

theorem label_for_total (d : List ℚ) (hlen : d.length ≤ 3) (r : ℚ) :
    ∃ o, label_for d r = some o ∧
      ∀ s, o = some s → (s = "typ" ∨ s = "min" ∨ s = "max") := by
  match d with
  | [] => exact ⟨none, rfl, by simp⟩
  | [a] => exact ⟨some "typ", rfl, by simp⟩
  | [a, b] =>
    refine ⟨some (if r = a then "min" else "max"), rfl, ?_⟩
    intro s hs
    by_cases hra : r = a <;> simp [hra] at hs <;> simp [hs]
  | [a, b, c] =>
    have hlt : argminIdx ([a, b, c].map (fun v => qabs (r - v))) <
        ([a, b, c].map (fun v => qabs (r - v))).length :=
      argminIdx_lt _ (by simp)
    simp only [List.length_map, List.length_cons, List.length_nil] at hlt
    have hget := List.getD_eq_getElem ["min", "typ", "max"] ""
      (by simpa using hlt :
        argminIdx ([a, b, c].map (fun v => qabs (r - v))) <
          (["min", "typ", "max"] : List String).length)
    refine ⟨some (["min", "typ", "max"].getD
      (argminIdx ([a, b, c].map (fun v => qabs (r - v)))) ""), ?_, ?_⟩
    · rw [show label_for [a, b, c] r =
        ((["min", "typ", "max"].get?
          (argminIdx ([a, b, c].map (fun v => qabs (r - v))))).map some)
        from rfl]
      rw [List.get?_eq_getElem?, List.getElem?_eq_getElem (by simpa using hlt)]
      rw [hget]
      rfl
    · intro s hs
      have hseq : s = ["min", "typ", "max"].getD
          (argminIdx ([a, b, c].map (fun v => qabs (r - v)))) "" :=
        (Option.some_inj.mp hs).symm
      have hmem : s ∈ (["min", "typ", "max"] : List String) := by
        rw [hseq, hget]
        exact List.getElem_mem _
      simp at hmem
      tauto
  | a :: b :: c :: e :: tl =>
    exfalso
    simp only [List.length_cons] at hlen
    omega

theorem prelimOf_total (d : List ℚ) (hlen : d.length ≤ 3) :
    ∀ l : List (Option ℚ),
      ∃ pre, prelimOf d l = some pre ∧ pre.length = l.length ∧
        ∀ o ∈ pre, ∀ s, o = some s →
          (s = "typ" ∨ s = "min" ∨ s = "max") := by
  intro l
  induction l with
  | nil => exact ⟨[], rfl, rfl, by simp⟩
  | cons r rest ih =>
    obtain ⟨pre, hpre, hplen, hmem⟩ := ih
    rcases r with _ | v
    · refine ⟨none :: pre, ?_, by simp [hplen], ?_⟩
      · simp [prelimOf, hpre]
      · intro o ho s hs
        rcases List.mem_cons.mp ho with he | hm
        · rw [he] at hs
          exact Option.noConfusion hs
        · exact hmem o hm s hs
    · obtain ⟨o, ho, hos⟩ := label_for_total d hlen v
      refine ⟨o :: pre, ?_, by simp [hplen], ?_⟩
      · simp [prelimOf, ho, hpre]
      · intro o2 ho2 s hs
        rcases List.mem_cons.mp ho2 with he | hm
        · exact hos s (he ▸ hs)
        · exact hmem o2 hm s hs

theorem fillNone_length (pre : List (Option String)) :
    ∀ i, (fillNone i pre).length = pre.length := by
  induction pre with
  | nil => intro i; rfl
  | cons o rest ih =>
    intro i
    rcases o with _ | l <;> simp [fillNone, ih]

theorem fillNone_mem (pre : List (Option String)) :
    ∀ i, ∀ s ∈ fillNone i pre,
      (some s ∈ pre) ∨ s = "typ" ∨ s = "min" ∨ s = "max" := by
  induction pre with
  | nil => intro i s hs; exact absurd hs (List.not_mem_nil s)
  | cons o rest ih =>
    intro i s hs
    rcases o with _ | l
    · rw [show fillNone i (none :: rest) =
        (if i < 3 then ["typ", "min", "max"].getD i "typ" else "typ") ::
          fillNone (i + 1) rest from rfl] at hs
      rcases List.mem_cons.mp hs with he | hm
      · right
        rw [he]
        by_cases hi : i < 3
        · rw [if_pos hi]
          interval_cases i <;> simp
        · rw [if_neg hi]
          simp
      · rcases ih (i + 1) s hm with h | h
        · exact Or.inl (List.mem_cons.mpr (Or.inr h))
        · exact Or.inr h
    · rw [show fillNone i (some l :: rest) = l :: fillNone (i + 1) rest
        from rfl] at hs
      rcases List.mem_cons.mp hs with he | hm
      · exact Or.inl (by rw [he]; simp)
      · rcases ih (i + 1) s hm with h | h
        · exact Or.inl (List.mem_cons.mpr (Or.inr h))
        · exact Or.inr h

/-- C10: whenever the usable reference values number at most three distinct,
`map_ref_to_corner` is total, returns one label per input entry, and every
label is one of `typ`, `min`, `max`; the precondition is required — with
four distinct values the closest-value branch indexes past the three-element
label list and the call fails. -/
theorem C10_bounded_distinct_totality :
    (∀ refs : List (Option ℚ), ((refs.filterMap id).dedup).length ≤ 3 →
      ∃ ls, map_ref_to_corner refs = some ls ∧ ls.length = refs.length ∧
        ∀ l ∈ ls, l = "typ" ∨ l = "min" ∨ l = "max") ∧
    map_ref_to_corner [some (10 : ℚ), some 11, some 12, some 13] = none := by
  constructor
  · intro refs hle
    have hlen : (finiteRefs refs).length ≤ 3 := by
      have hp := (List.perm_insertionSort (· ≤ ·)
        ((refs.filterMap id).dedup)).length_eq
      unfold finiteRefs
      omega
    obtain ⟨pre, hpre, hplen, hmem⟩ := prelimOf_total (finiteRefs refs) hlen refs
    refine ⟨fillNone 0 pre, ?_, ?_, ?_⟩
    · unfold map_ref_to_corner
      rw [hpre]
      rfl
    · rw [fillNone_length pre 0, hplen]
    · intro l hl
      rcases fillNone_mem pre 0 l hl with h | h
      · exact hmem (some l) h l rfl
      · exact h
  · have hf : finiteRefs [some (10 : ℚ), some 11, some 12, some 13] =
        [10, 11, 12, 13] := by decide
    simp only [map_ref_to_corner, hf, prelimOf, label_for]
    norm_num [qabs, argminIdx, idxOfQ]

/-- C10 witness: a single usable value is labelled totally. -/
theorem C10_bounded_distinct_totality_witness :
    ∃ ls, map_ref_to_corner [some (5 : ℚ)] = some ls ∧
      ls.length = ([some (5 : ℚ)] : List (Option ℚ)).length ∧
      ∀ l ∈ ls, l = "typ" ∨ l = "min" ∨ l = "max" :=
  C10_bounded_distinct_totality.1 [some 5] (by decide)
